import Mathlib

/-!
Shallow embedding of the line-diff core of `graphql-query-diff`
(`src/main.rs`): the Myers-style edit-graph search `get_diff`, the backward
path reconstruction `get_path`, and the renderer `print_output`, together
with the post-parse dispatch logic of `main`.

Fallible operations of the source (vector indexing, `try_into().unwrap()`,
usize subtraction) are modelled in the `Option` monad: `none` models a
panic. The two while loops are expressed as structural recursion on their
remaining iteration count, which makes them kernel-computable.
-/

namespace GraphqlQueryDiff

/-- Line-diff operation kinds, mirroring the `Operation` enum of the source
(`Nothing` is the Keep tag). -/
inductive Operation where
  | Delete
  | Insert
  | Nothing
deriving DecidableEq, Repr

/-- A rendered diff entry, mirroring the `Printer` struct of the source: an
operation tag together with the line it applies to. -/
structure Printer (α : Type) where
  operation : Operation
  line : α
deriving DecidableEq, Repr

/-- GraphQL operation types distinguished by `get_operation_type`. -/
inductive GraphqlOpType where
  | Query
  | Subscription
  | Mutation
deriving DecidableEq, Repr

/-- The trace table of the search (`path` in the source): rows indexed by
depth, columns by padded diagonal. -/
abbrev Table := List (List Nat)

/-- Checked two-dimensional read; a failed bounds check models an index
panic of the source. -/
def getAt (t : Table) (i j : Nat) : Option Nat :=
  (t[i]?).bind fun row => row[j]?

/-- Checked two-dimensional write; a failed bounds check models an index
panic of the source. -/
def setAt (t : Table) (i j v : Nat) : Option Table :=
  (t[i]?).bind fun row =>
    if j < row.length then some (t.set i (row.set j v)) else none

/-- Conversion of a signed value to usize, modelling
`usize::try_from(..).unwrap()` / `.try_into().unwrap()`: `none` is the
panicking case. -/
def intToUsize (n : Int) : Option Nat :=
  if 0 ≤ n then some n.toNat else none

/-- Checked usize subtraction; `none` models an underflow panic. -/
def usizeSub (a b : Nat) : Option Nat :=
  if b ≤ a then some (a - b) else none

/-- The usize value produced by the `as usize` cast of an i32 value. -/
def castUsize (n : Int) : Nat :=
  (n % (2 : Int) ^ 64).toNat

/-- One round of the snake loop, recursing on the remaining room
`actual.length - x`, which bounds the number of iterations: each iteration
requires `x < actual.length` and increments `x`. With zero room the guard
`x < actual.length` is false and the loop exits with `x`. -/
def snakeGo {α : Type} [DecidableEq α] (expected actual : List α) (k : Int) :
    Nat → Nat → Option Nat
  | 0, x => some x
  | fuel + 1, x =>
    if x < actual.length then
      if ((x : Int) - k) < (expected.length : Int) then
        (intToUsize ((x : Int) - k)).bind fun y =>
          (actual[x]?).bind fun av =>
            (expected[y]?).bind fun ev =>
              if av = ev then snakeGo expected actual k fuel (x + 1)
              else some x
      else some x
    else some x

/-- The greedy snake loop of `get_diff` (lines 147-153 of the source):
starting from `x`, advance while the next lines of `actual` and `expected`
agree along diagonal `k`. The condition order mirrors the source: the
bounds tests short-circuit before the fallible conversion of `x - k`. -/
def snake {α : Type} [DecidableEq α] (expected actual : List α) (k : Int)
    (x : Nat) : Option Nat :=
  snakeGo expected actual k (actual.length - x) x

/-- The frontier update of `get_diff` for a positive depth (lines 137-146):
choose the previous-depth neighbour along `k+1` when `k == -depth`, or when
`k != depth` and the `k-1` value is smaller; otherwise the `k-1` value plus
one. Short-circuit evaluation of the source condition is preserved, so the
`k-1` column is only touched when actually read. -/
def chooseStart (t : Table) (depth : Nat) (k : Int) (index : Nat) :
    Option Nat :=
  if k = -(depth : Int) then
    getAt t (depth - 1) (index + 1)
  else if k ≠ (depth : Int) then
    (usizeSub index 1).bind fun im =>
      (getAt t (depth - 1) im).bind fun l =>
        (getAt t (depth - 1) (index + 1)).bind fun r =>
          if l < r then some r else some (l + 1)
  else
    (usizeSub index 1).bind fun im =>
      (getAt t (depth - 1) im).bind fun l => some (l + 1)

/-- The backward-step decision of `get_path` at depth `d + 1` (lines
177-184): `true` means the walk moves to diagonal `k + 1`. Read order
mirrors the source: the `padded + 1` column is read before the checked
`padded - 1` subscript. -/
def pathChoice (trav : Table) (d : Nat) (k : Int) (padded : Nat) :
    Option Bool :=
  if k ≠ (d : Int) + 1 then
    (getAt trav d (padded + 1)).bind fun r =>
      (usizeSub padded 1).bind fun pm =>
        (getAt trav d pm).bind fun l =>
          some (decide (l ≤ r) || decide (k = -((d : Int) + 1)))
  else
    some (decide (k = -((d : Int) + 1)))

/-- The body of `get_path` (lines 170-192): walk depths downward pushing
snake endpoints, then push the final point read at column `padded + 1` of
row 0, where `padded` still holds the value of the last loop iteration (0
when the loop never ran), and reverse. -/
def pathLoop (trav : Table) (maxd : Nat) :
    Nat → Int → Nat → List (Nat × Nat) → Option (List (Nat × Nat))
  | 0, k, padded, acc =>
    (getAt trav 0 (padded + 1)).bind fun v =>
      (usizeSub v (castUsize k)).bind fun y =>
        some ((acc.concat (v, y)).reverse)
  | d + 1, k, _, acc =>
    (intToUsize ((maxd : Int) + k)).bind fun padded =>
      (getAt trav (d + 1) padded).bind fun x =>
        (intToUsize ((x : Int) - k)).bind fun y =>
          (pathChoice trav d k padded).bind fun inc =>
            pathLoop trav maxd d (if inc then k + 1 else k - 1) padded
              (acc.concat (x, y))

/-- `get_path` of the source (lines 164-193). -/
def get_path (traversal : Table) (depth : Nat) (k : Int) (maxd : Nat) :
    Option (List (Nat × Nat)) :=
  pathLoop traversal maxd depth k 0 []

/-- One `(depth, k)` iteration of the search loop of `get_diff` (lines
135-158): compute the padded column, take the depth-0 cell or the chosen
neighbour value, slide the snake, store the result, and on reaching the
terminal corner hand over to `get_path`. -/
def cellStep {α : Type} [DecidableEq α] (expected actual : List α)
    (maxd : Nat) (t : Table) (depth : Nat) (k : Int) :
    Option (Table ⊕ List (Nat × Nat)) :=
  (intToUsize ((maxd : Int) + k)).bind fun index =>
    ((if depth = 0 then getAt t depth index
      else chooseStart t depth k index)).bind fun x0 =>
      (snake expected actual k x0).bind fun x =>
        (setAt t depth index x).bind fun t' =>
          if actual.length ≤ x ∧ (expected.length : Int) ≤ (x : Int) - k then
            (get_path t' depth k maxd).bind fun p => some (Sum.inr p)
          else some (Sum.inl t')

/-- The inner `k` loop of `get_diff` at a fixed depth, with early return on
reaching the terminal corner. -/
def kLoop {α : Type} [DecidableEq α] (expected actual : List α) (maxd : Nat)
    (depth : Nat) : Table → List Int → Option (Table ⊕ List (Nat × Nat))
  | t, [] => some (Sum.inl t)
  | t, k :: ks =>
    (cellStep expected actual maxd t depth k).bind fun s =>
      match s with
      | Sum.inr p => some (Sum.inr p)
      | Sum.inl t' => kLoop expected actual maxd depth t' ks

/-- The diagonals `(-depth..=depth).step_by(2)` visited at a given depth. -/
def kRange (depth : Nat) : List Int :=
  (List.range (depth + 1)).map fun i : Nat => -(depth : Int) + 2 * (i : Int)

/-- The outer depth loop of `get_diff` (line 133), with early return. -/
def depthLoop {α : Type} [DecidableEq α] (expected actual : List α)
    (maxd : Nat) : Table → List Nat → Option (Table ⊕ List (Nat × Nat))
  | t, [] => some (Sum.inl t)
  | t, d :: ds =>
    (kLoop expected actual maxd d t (kRange d)).bind fun s =>
      match s with
      | Sum.inr p => some (Sum.inr p)
      | Sum.inl t' => depthLoop expected actual maxd t' ds

/-- `get_diff` of the source (lines 127-162): allocate the
`max_diff × (2·max_diff + 1)` trace table, write cell `[0][max_diff]` (a
panic when the table has zero rows), run the bounded search over depths
`0..max_diff`, and fall through to the empty vector when no terminal corner
is reached. -/
def get_diff {α : Type} [DecidableEq α] (expected actual : List α) :
    Option (List (Nat × Nat)) :=
  let maxd := expected.length + actual.length
  let t0 : Table := List.replicate maxd (List.replicate (2 * maxd + 1) 0)
  (setAt t0 0 maxd 0).bind fun t1 =>
    (depthLoop expected actual maxd t1 (List.range maxd)).bind fun s =>
      match s with
      | Sum.inl _ => some []
      | Sum.inr p => some p

/-- One round of the keep-filling loop, recursing on the remaining distance
`(x - px).toNat`, which bounds the number of iterations: each iteration
requires `px < x` and increments `px`. With zero distance the guard
`px < x` is false and the loop exits. -/
def fillKeepsGo {α : Type} (actual : List α) (x : Int) :
    Nat → Int → Int → List (Printer α) →
    Option (List (Printer α) × Int × Int)
  | 0, px, py, acc => some (acc, px, py)
  | fuel + 1, px, py, acc =>
    if px < x then
      (intToUsize px).bind fun i =>
        (actual[i]?).bind fun line =>
          fillKeepsGo actual x fuel (px + 1) (py + 1)
            (acc.concat ⟨Operation.Nothing, line⟩)
    else some (acc, px, py)

/-- The keep-filling while loop of `print_output` (lines 219-226): emit
`Nothing` entries for `actual[prev_x]` while `prev_x < x`, advancing both
cursors. -/
def fillKeeps {α : Type} (actual : List α) (x : Int) (px py : Int)
    (acc : List (Printer α)) : Option (List (Printer α) × Int × Int) :=
  fillKeepsGo actual x (x - px).toNat px py acc

/-- The per-point adjustment of `print_output` (lines 206-218): one Delete
when the diagonal offset grew, one Insert when it shrank. -/
def adjustStep {α : Type} (expected actual : List α) (x y px py : Int)
    (acc : List (Printer α)) : Option (List (Printer α) × Int × Int) :=
  if px - py < x - y then
    (intToUsize px).bind fun i =>
      (actual[i]?).bind fun line =>
        some (acc.concat ⟨Operation.Delete, line⟩, px + 1, py)
  else if x - y < px - py then
    (intToUsize py).bind fun j =>
      (expected[j]?).bind fun line =>
        some (acc.concat ⟨Operation.Insert, line⟩, px, py + 1)
  else some (acc, px, py)

/-- The coordinate loop of `print_output` (lines 204-227). -/
def renderLoop {α : Type} (expected actual : List α) :
    List (Nat × Nat) → Int → Int → List (Printer α) →
    Option (List (Printer α))
  | [], _, _, acc => some acc
  | (xn, yn) :: rest, px, py, acc =>
    (adjustStep expected actual (xn : Int) (yn : Int) px py acc).bind
      fun r1 =>
        (fillKeeps actual (xn : Int) r1.2.1 r1.2.2 r1.1).bind fun r2 =>
          renderLoop expected actual rest r2.2.1 r2.2.2 r2.1

/-- `print_output` of the source (lines 195-227), up to the terminal
colouring which is outside the core: the ordered operation list accumulated
into `print_ops`. -/
def print_output {α : Type} (coordinates : List (Nat × Nat))
    (print_ops : List (Printer α)) (expected actual : List α) :
    Option (List (Printer α)) :=
  renderLoop expected actual coordinates 0 0 print_ops

/-- The composition exercised by the spec's `diff` contract: `get_diff`
followed by `print_output` with no pre-seeded operations. -/
def diffOutput {α : Type} [DecidableEq α] (expected actual : List α) :
    Option (List (Printer α)) :=
  (get_diff expected actual).bind fun coords =>
    print_output coords [] expected actual

/-- The post-parse logic of `main` (lines 76-105): skip the first line of
both rendered documents when the operation types agree, seeding the output
with a `Nothing` entry for the first expected line. -/
def mainOutput (expectedOp actualOp : GraphqlOpType)
    (expLines actLines : List String) : Option (List (Printer String)) :=
  let skip := if actualOp = expectedOp then 1 else 0
  (get_diff (expLines.drop skip) (actLines.drop skip)).bind fun coords =>
    ((if skip = 1 then
        (expLines[0]?).bind fun l =>
          some [(⟨Operation.Nothing, l⟩ : Printer String)]
      else some [])).bind fun seed =>
      print_output coords seed (expLines.drop skip) (actLines.drop skip)

/-- Whether a rendered entry is a Keep. -/
def isKeep {α : Type} (p : Printer α) : Bool :=
  match p.operation with
  | Operation.Nothing => true
  | _ => false

/-- Whether a rendered entry is a Delete. -/
def isDelete {α : Type} (p : Printer α) : Bool :=
  match p.operation with
  | Operation.Delete => true
  | _ => false

/-- Whether a rendered entry is an Insert. -/
def isInsert {α : Type} (p : Printer α) : Bool :=
  match p.operation with
  | Operation.Insert => true
  | _ => false

/-- Number of Keep operations in a rendered diff. -/
def keepCount {α : Type} (ops : List (Printer α)) : Nat :=
  (ops.filter isKeep).length

/-- Number of Insert plus Delete operations in a rendered diff. -/
def insDelCount {α : Type} (ops : List (Printer α)) : Nat :=
  (ops.filter fun p => !isKeep p).length

/-- The lines of the Keep and Insert entries, in order: per the spec these
should reproduce the expected sequence. -/
def keepInsertLines {α : Type} (ops : List (Printer α)) : List α :=
  (ops.filter fun p => !isDelete p).map Printer.line

/-- The lines of the Keep and Delete entries, in order: per the spec these
should reproduce the actual sequence. -/
def keepDeleteLines {α : Type} (ops : List (Printer α)) : List α :=
  (ops.filter fun p => !isInsert p).map Printer.line

/-- Length of the longest common subsequence, stating the spec's LCS
invariants. -/
def lcsLen {α : Type} [DecidableEq α] : List α → List α → Nat
  | [], _ => 0
  | _ :: _, [] => 0
  | x :: xs, y :: ys =>
    if x = y then lcsLen xs ys + 1
    else max (lcsLen (x :: xs) ys) (lcsLen xs (y :: ys))
termination_by l₁ l₂ => l₁.length + l₂.length

/-- Well-formedness of the trace table: `maxd` rows of `2·maxd + 1`
cells. -/
def dims (maxd : Nat) (t : Table) : Prop :=
  t.length = maxd ∧ ∀ row ∈ t, row.length = 2 * maxd + 1

/-- The value stored at `(i, j)`, if readable, is at least the diagonal
`j - maxd` it sits on; this is what makes the `x - k` conversions of the
source succeed. -/
def cellOk (maxd : Nat) (t : Table) (i j : Nat) : Prop :=
  ∀ v, getAt t i j = some v → (j : Int) - (maxd : Int) ≤ (v : Int)

/-- All rows below depth `d` satisfy `cellOk` on their reachable diagonals
(columns of matching parity not beyond `maxd + i`). -/
def invBelow (maxd d : Nat) (t : Table) : Prop :=
  ∀ i j, i < d → j ≤ maxd + i → (i + j) % 2 = maxd % 2 →
    cellOk maxd t i j

/-- A diagonal visited at a given depth: within `[-depth, depth]` and of
the depth's parity. -/
def kLegal (depth : Nat) (k : Int) : Prop :=
  -(depth : Int) ≤ k ∧ k ≤ (depth : Int) ∧ (k + depth) % 2 = 0

/-- A list read in bounds succeeds. -/
theorem listGet_some {β : Type} {l : List β} {i : Nat} (h : i < l.length) :
    ∃ v, l[i]? = some v :=
  ⟨l[i], List.getElem?_eq_some.mpr ⟨h, rfl⟩⟩

/-- A successful list read yields a member of the list. -/
theorem listMem_of_get {β : Type} {l : List β} {i : Nat} {v : β}
    (h : l[i]? = some v) : v ∈ l := by
  rw [List.getElem?_eq_some] at h
  obtain ⟨hlt, rfl⟩ := h
  exact List.getElem_mem hlt

/-- A read inside a well-formed table succeeds. -/
theorem getAt_some_of_dims {maxd : Nat} {t : Table} (h : dims maxd t)
    {i j : Nat} (hi : i < maxd) (hj : j < 2 * maxd + 1) :
    ∃ v, getAt t i j = some v := by
  obtain ⟨hlen, hrows⟩ := h
  obtain ⟨row, hrow⟩ := listGet_some (l := t) (i := i) (by omega)
  have hrlen : row.length = 2 * maxd + 1 := hrows row (listMem_of_get hrow)
  obtain ⟨v, hv⟩ := listGet_some (l := row) (i := j) (by omega)
  exact ⟨v, by simp [getAt, hrow, hv]⟩

/-- A write inside a well-formed table succeeds, preserves well-formedness,
stores the value, and leaves every other cell unchanged. -/
theorem setAt_some_of_dims {maxd : Nat} {t : Table} (h : dims maxd t)
    {i j : Nat} (v : Nat) (hi : i < maxd) (hj : j < 2 * maxd + 1) :
    ∃ t', setAt t i j v = some t' ∧ dims maxd t' ∧
      getAt t' i j = some v ∧
      ∀ i' j', ¬(i' = i ∧ j' = j) → getAt t' i' j' = getAt t i' j' := by
  obtain ⟨hlen, hrows⟩ := h
  obtain ⟨row, hrow⟩ := listGet_some (l := t) (i := i) (by omega)
  have hrlen : row.length = 2 * maxd + 1 := hrows row (listMem_of_get hrow)
  refine ⟨t.set i (row.set j v), ?_, ?_, ?_, ?_⟩
  · simp [setAt, hrow, hrlen, hj]
  · constructor
    · simp [hlen]
    · intro row' hmem
      rcases List.mem_or_eq_of_mem_set hmem with hmem' | heq
      · exact hrows row' hmem'
      · subst heq
        simp [hrlen]
  · have h1 : (t.set i (row.set j v))[i]? = some (row.set j v) := by
      rw [List.getElem?_set_self']
      simp [hrow]
    have h2 : (row.set j v)[j]? = some v := by
      rw [List.getElem?_set_self']
      obtain ⟨w, hw⟩ := listGet_some (l := row) (i := j) (by omega)
      simp [hw]
    simp [getAt, h1, h2]
  · intro i' j' hne
    by_cases hii : i' = i
    · subst hii
      have hj' : j ≠ j' := fun hjj => hne ⟨rfl, hjj.symm⟩
      have h1 : (t.set i' (row.set j v))[i']? = some (row.set j v) := by
        rw [List.getElem?_set_self']
        simp [hrow]
      have h2 : (row.set j v)[j']? = row[j']? :=
        List.getElem?_set_ne hj'
      simp [getAt, h1, h2, hrow]
    · have h1 : (t.set i (row.set j v))[i']? = t[i']? :=
        List.getElem?_set_ne (fun hii' => hii hii'.symm)
      simp [getAt, h1]

/-- Cells on columns not beyond `maxd` trivially satisfy `cellOk`. -/
theorem cellOk_of_le_maxd {maxd : Nat} {t : Table} {i j : Nat}
    (h : j ≤ maxd) : cellOk maxd t i j := by
  intro v _
  omega

/-- `cellOk` transfers along an unchanged cell. -/
theorem cellOk_congr {maxd : Nat} {t t' : Table} {i j : Nat}
    (h : getAt t' i j = getAt t i j) (hok : cellOk maxd t i j) :
    cellOk maxd t' i j := by
  intro v hv
  exact hok v (h ▸ hv)

/-- Every diagonal produced by `kRange` is legal for its depth. -/
theorem kRange_legal (depth : Nat) : ∀ k ∈ kRange depth, kLegal depth k := by
  intro k hk
  unfold kRange at hk
  rcases List.mem_map.mp hk with ⟨i, hi, rfl⟩
  rw [List.mem_range] at hi
  refine ⟨by omega, by omega, by omega⟩

/-- Every legal diagonal of a depth is visited by `kRange`. -/
theorem mem_kRange {depth : Nat} {k : Int} (h : kLegal depth k) :
    k ∈ kRange depth := by
  obtain ⟨h1, h2, h3⟩ := h
  unfold kRange
  rw [List.mem_map]
  refine ⟨(k + (depth : Int)).toNat / 2, ?_, ?_⟩
  · rw [List.mem_range]
    omega
  · omega

/-- The snake loop succeeds from any start not below its diagonal, and its
result stays at or above the start and on or above the diagonal. -/
theorem snakeGo_some {α : Type} [DecidableEq α] (expected actual : List α)
    (k : Int) :
    ∀ (fuel x : Nat), 0 ≤ (x : Int) - k →
      ∃ x', snakeGo expected actual k fuel x = some x' ∧ x ≤ x' ∧
        0 ≤ (x' : Int) - k := by
  intro fuel
  induction fuel with
  | zero => intro x hx; exact ⟨x, rfl, Nat.le_refl x, hx⟩
  | succ fuel ih =>
    intro x hx
    simp only [snakeGo]
    by_cases h1 : x < actual.length
    · simp only [if_pos h1]
      by_cases h2 : ((x : Int) - k) < (expected.length : Int)
      · simp only [if_pos h2]
        have hy : intToUsize ((x : Int) - k) = some ((x : Int) - k).toNat :=
          by simp [intToUsize, hx]
        rw [hy]
        simp only [Option.some_bind]
        obtain ⟨av, hav⟩ := listGet_some (l := actual) (i := x) (by omega)
        obtain ⟨ev, hev⟩ :=
          listGet_some (l := expected) (i := ((x : Int) - k).toNat)
            (by omega)
        rw [hav, hev]
        simp only [Option.some_bind]
        by_cases heq : av = ev
        · simp only [if_pos heq]
          obtain ⟨x', hx', hle, hd⟩ := ih (x + 1) (by omega)
          exact ⟨x', hx', by omega, hd⟩
        · simp only [if_neg heq]
          exact ⟨x, rfl, Nat.le_refl x, hx⟩
      · simp only [if_neg h2]
        exact ⟨x, rfl, Nat.le_refl x, hx⟩
    · simp only [if_neg h1]
      exact ⟨x, rfl, Nat.le_refl x, hx⟩

/-- The snake call of `get_diff` succeeds from any start not below its
diagonal. -/
theorem snake_some {α : Type} [DecidableEq α] (expected actual : List α)
    (k : Int) (x : Nat) (hx : 0 ≤ (x : Int) - k) :
    ∃ x', snake expected actual k x = some x' ∧ x ≤ x' ∧
      0 ≤ (x' : Int) - k :=
  snakeGo_some expected actual k (actual.length - x) x hx

/-- A non-negative value converts to usize. -/
theorem intToUsize_some {n : Int} (h : 0 ≤ n) :
    ∃ m : Nat, intToUsize n = some m ∧ (m : Int) = n :=
  ⟨n.toNat, by simp [intToUsize, h], by omega⟩

/-- A usize subtraction with no underflow succeeds. -/
theorem usizeSub_some {a b : Nat} (h : b ≤ a) :
    usizeSub a b = some (a - b) := by
  simp [usizeSub, h]

/-- The frontier update of `get_diff` succeeds on a legal positive-depth
diagonal of a well-formed table, and the chosen start is not below the
diagonal `k`. -/
theorem chooseStart_some {maxd depth : Nat} {t : Table} {k : Int}
    {index : Nat} (hdims : dims maxd t) (hinv : invBelow maxd depth t)
    (hd : 0 < depth) (hdm : depth < maxd) (hk : kLegal depth k)
    (hidx : (index : Int) = (maxd : Int) + k) :
    ∃ x0, chooseStart t depth k index = some x0 ∧ k ≤ (x0 : Int) := by
  obtain ⟨hk1, hk2, hk3⟩ := hk
  unfold chooseStart
  by_cases hA : k = -(depth : Int)
  · simp only [if_pos hA]
    obtain ⟨v, hv⟩ := getAt_some_of_dims hdims (i := depth - 1)
      (j := index + 1) (by omega) (by omega)
    have hok : cellOk maxd t (depth - 1) (index + 1) :=
      hinv (depth - 1) (index + 1) (by omega) (by omega) (by omega)
    have hvk := hok v hv
    exact ⟨v, hv, by omega⟩
  · by_cases hB : k = (depth : Int)
    · simp only [if_neg hA, if_neg (not_not_intro hB)]
      rw [usizeSub_some (a := index) (b := 1) (by omega)]
      simp only [Option.some_bind]
      obtain ⟨l, hl⟩ := getAt_some_of_dims hdims (i := depth - 1)
        (j := index - 1) (by omega) (by omega)
      have hok : cellOk maxd t (depth - 1) (index - 1) :=
        hinv (depth - 1) (index - 1) (by omega) (by omega) (by omega)
      have hlk := hok l hl
      rw [hl]
      simp only [Option.some_bind]
      exact ⟨l + 1, rfl, by omega⟩
    · have hne : k ≠ (depth : Int) := hB
      simp only [if_neg hA, if_pos hne]
      rw [usizeSub_some (a := index) (b := 1) (by omega)]
      simp only [Option.some_bind]
      obtain ⟨l, hl⟩ := getAt_some_of_dims hdims (i := depth - 1)
        (j := index - 1) (by omega) (by omega)
      have hokl : cellOk maxd t (depth - 1) (index - 1) :=
        hinv (depth - 1) (index - 1) (by omega) (by omega) (by omega)
      have hlk := hokl l hl
      obtain ⟨r, hr⟩ := getAt_some_of_dims hdims (i := depth - 1)
        (j := index + 1) (by omega) (by omega)
      have hokr : cellOk maxd t (depth - 1) (index + 1) :=
        hinv (depth - 1) (index + 1) (by omega) (by omega) (by omega)
      have hrk := hokr r hr
      rw [hl, hr]
      simp only [Option.some_bind]
      by_cases hlr : l < r
      · simp only [if_pos hlr]
        exact ⟨r, rfl, by omega⟩
      · simp only [if_neg hlr]
        exact ⟨l + 1, rfl, by omega⟩

/-- The backward walk of `get_path` succeeds: at every level the visited
cell exists and sits on or above its diagonal, and the diagonal updates
stay legal. `dtop` is the terminated depth; rows strictly below it are
covered by the invariant, the current cell by `hcell`. -/
theorem pathLoop_some {maxd dtop : Nat} {t : Table} (hdims : dims maxd t)
    (hinv : invBelow maxd dtop t) (hmax : 1 ≤ maxd) :
    ∀ (d : Nat) (k : Int) (padded : Nat) (acc : List (Nat × Nat)),
      d ≤ dtop → d < maxd → kLegal d k → padded + 1 ≤ 2 * maxd →
      (∀ j : Nat, (j : Int) = (maxd : Int) + k → cellOk maxd t d j) →
      ∃ p, pathLoop t maxd d k padded acc = some p := by
  intro d
  induction d with
  | zero =>
    intro k padded acc hdt hdm hk hpad hcell
    have hk0 : k = 0 := by
      obtain ⟨a, b, c⟩ := hk
      omega
    subst hk0
    simp only [pathLoop]
    obtain ⟨v, hv⟩ := getAt_some_of_dims hdims (i := 0) (j := padded + 1)
      (by omega) (by omega)
    rw [hv]
    simp only [Option.some_bind]
    have hc : castUsize 0 = 0 := by simp [castUsize]
    rw [hc, usizeSub_some (a := v) (b := 0) (by omega)]
    simp only [Option.some_bind]
    exact ⟨_, rfl⟩
  | succ d ih =>
    intro k padded acc hdt hdm hk hpad hcell
    obtain ⟨hk1, hk2, hk3⟩ := hk
    simp only [pathLoop]
    obtain ⟨pd, hIU, hpdi⟩ := intToUsize_some (n := (maxd : Int) + k)
      (by omega)
    rw [hIU]
    simp only [Option.some_bind]
    obtain ⟨x, hx⟩ := getAt_some_of_dims hdims (i := d + 1) (j := pd)
      (by omega) (by omega)
    rw [hx]
    simp only [Option.some_bind]
    have hxk : k ≤ (x : Int) := by
      have := hcell pd hpdi x hx
      omega
    obtain ⟨y, hIU2, hyi⟩ := intToUsize_some (n := (x : Int) - k) (by omega)
    rw [hIU2]
    simp only [Option.some_bind]
    by_cases hKd : k = (d : Int) + 1
    · have hchoice : pathChoice t d k pd =
          some (decide (k = -((d : Int) + 1))) := by
        simp only [pathChoice, if_neg (not_not_intro hKd)]
      rw [hchoice]
      simp only [Option.some_bind]
      rw [if_neg (by simp only [decide_eq_true_iff]; omega :
        ¬(decide (k = -((d : Int) + 1)) = true))]
      refine ih (k - 1) pd (acc.concat (x, y)) (by omega) (by omega)
        ⟨by omega, by omega, by omega⟩ (by omega) ?_
      intro j hj
      exact hinv d j (by omega) (by omega) (by omega)
    · obtain ⟨r, hr⟩ := getAt_some_of_dims hdims (i := d) (j := pd + 1)
        (by omega) (by omega)
      have hpd1 : (1 : Nat) ≤ pd := by omega
      obtain ⟨l, hl⟩ := getAt_some_of_dims hdims (i := d) (j := pd - 1)
        (by omega) (by omega)
      have hchoice : pathChoice t d k pd =
          some (decide (l ≤ r) || decide (k = -((d : Int) + 1))) := by
        simp only [pathChoice, if_pos hKd]
        rw [hr]
        simp only [Option.some_bind]
        rw [usizeSub_some hpd1]
        simp only [Option.some_bind]
        rw [hl]
        simp only [Option.some_bind]
      rw [hchoice]
      simp only [Option.some_bind]
      by_cases hbool : (decide (l ≤ r) || decide (k = -((d : Int) + 1)))
          = true
      · rw [if_pos hbool]
        refine ih (k + 1) pd (acc.concat (x, y)) (by omega) (by omega)
          ⟨by omega, by omega, by omega⟩ (by omega) ?_
        intro j hj
        exact hinv d j (by omega) (by omega) (by omega)
      · rw [if_neg hbool]
        have hknm : ¬(k = -((d : Int) + 1)) := by
          intro hc
          exact hbool (by simp [hc])
        refine ih (k - 1) pd (acc.concat (x, y)) (by omega) (by omega)
          ⟨by omega, by omega, by omega⟩ (by omega) ?_
        intro j hj
        exact hinv d j (by omega) (by omega) (by omega)

/-- `get_path` succeeds from a terminal state of depth below `maxd` whose
cell is on or above its diagonal. -/
theorem get_path_some {maxd depth : Nat} {t : Table} {k : Int}
    (hdims : dims maxd t) (hinv : invBelow maxd depth t)
    (hcell : ∀ j : Nat, (j : Int) = (maxd : Int) + k → cellOk maxd t depth j)
    (hdm : depth < maxd) (hmax : 1 ≤ maxd) (hk : kLegal depth k) :
    ∃ p, get_path t depth k maxd = some p := by
  unfold get_path
  exact pathLoop_some hdims hinv hmax depth k 0 [] (Nat.le_refl depth) hdm
    hk (by omega) hcell

/-- One search iteration succeeds on a legal diagonal of a well-formed
table: the conversions succeed, the write lands in bounds, and on the
terminal corner the path reconstruction also succeeds. A continuing
iteration preserves well-formedness, touches only its own cell, and leaves
that cell on or above its diagonal. -/
theorem cellStep_ok {α : Type} [DecidableEq α] (expected actual : List α)
    {maxd depth : Nat} {t : Table} {k : Int}
    (hdims : dims maxd t) (hinv : invBelow maxd depth t)
    (hdm : depth < maxd) (hmax : 1 ≤ maxd) (hk : kLegal depth k) :
    ∃ r, cellStep expected actual maxd t depth k = some r ∧
      ∀ t', r = Sum.inl t' →
        dims maxd t' ∧
        (∀ i j : Nat, ¬(i = depth ∧ (j : Int) = (maxd : Int) + k) →
          getAt t' i j = getAt t i j) ∧
        (∀ j : Nat, (j : Int) = (maxd : Int) + k →
          cellOk maxd t' depth j) := by
  obtain ⟨hk1, hk2, hk3⟩ := hk
  unfold cellStep
  obtain ⟨index, hIU, hidxi⟩ := intToUsize_some (n := (maxd : Int) + k)
    (by omega)
  rw [hIU]
  simp only [Option.some_bind]
  obtain ⟨x0, hx0, hx0k⟩ :
      ∃ x0, (if depth = 0 then getAt t depth index
        else chooseStart t depth k index) = some x0 ∧ k ≤ (x0 : Int) := by
    by_cases hd0 : depth = 0
    · subst hd0
      obtain ⟨v, hv⟩ := getAt_some_of_dims hdims (i := 0) (j := index)
        (by omega) (by omega)
      exact ⟨v, by rw [if_pos rfl]; exact hv, by omega⟩
    · rw [if_neg hd0]
      exact chooseStart_some hdims hinv (by omega) hdm ⟨hk1, hk2, hk3⟩ hidxi
  rw [hx0]
  simp only [Option.some_bind]
  obtain ⟨x, hxs, hxge, hxk⟩ := snake_some expected actual k x0 (by omega)
  rw [hxs]
  simp only [Option.some_bind]
  obtain ⟨t', hset, hdims', hget', hunch⟩ :=
    setAt_some_of_dims hdims x (i := depth) (j := index) (by omega)
      (by omega)
  rw [hset]
  simp only [Option.some_bind]
  by_cases hterm : actual.length ≤ x ∧
      (expected.length : Int) ≤ (x : Int) - k
  · rw [if_pos hterm]
    have hinv' : invBelow maxd depth t' := by
      intro i j hi hj hp
      exact cellOk_congr (hunch i j (by intro hc; omega))
        (hinv i j hi hj hp)
    have hcell' : ∀ j : Nat, (j : Int) = (maxd : Int) + k →
        cellOk maxd t' depth j := by
      intro j hj v hv
      have hjidx : j = index := by omega
      subst hjidx
      rw [hget'] at hv
      cases hv
      omega
    obtain ⟨p, hp⟩ := get_path_some hdims' hinv' hcell' hdm hmax
      ⟨hk1, hk2, hk3⟩
    rw [hp]
    simp only [Option.some_bind]
    exact ⟨Sum.inr p, rfl, fun t'' hcontra => nomatch hcontra⟩
  · rw [if_neg hterm]
    refine ⟨Sum.inl t', rfl, ?_⟩
    intro t'' heq
    cases heq
    refine ⟨hdims', ?_, ?_⟩
    · intro i j hne
      apply hunch
      intro hc
      exact hne ⟨hc.1, by rw [hc.2]; exact hidxi⟩
    · intro j hj v hv
      have hjidx : j = index := by omega
      subst hjidx
      rw [hget'] at hv
      cases hv
      omega

/-- The inner diagonal loop succeeds on any suffix of legal diagonals of a
well-formed table whose already-processed cells are on or above their
diagonals, and when it continues, the whole processed row satisfies the
invariant one depth higher. -/
theorem kLoop_some {α : Type} [DecidableEq α] (expected actual : List α)
    {maxd depth : Nat} (hdm : depth < maxd) (hmax : 1 ≤ maxd) :
    ∀ (ks : List Int) (t : Table), dims maxd t → invBelow maxd depth t →
      (∀ k ∈ ks, kLegal depth k) →
      (∀ j : Nat, j ≤ maxd + depth → (depth + j) % 2 = maxd % 2 →
        (∀ k ∈ ks, (j : Int) ≠ (maxd : Int) + k) → cellOk maxd t depth j) →
      ∃ r, kLoop expected actual maxd depth t ks = some r ∧
        ∀ t', r = Sum.inl t' →
          dims maxd t' ∧ invBelow maxd (depth + 1) t' := by
  intro ks
  induction ks with
  | nil =>
    intro t hdims hinv hleg hrow
    refine ⟨Sum.inl t, rfl, ?_⟩
    intro t' heq
    cases heq
    refine ⟨hdims, ?_⟩
    intro i j hi hj hp
    by_cases hid : i = depth
    · subst hid
      exact hrow j (by omega) (by omega)
        (fun k hk => absurd hk (List.not_mem_nil k))
    · exact hinv i j (by omega) hj hp
  | cons k ks ih =>
    intro t hdims hinv hleg hrow
    have hkleg : kLegal depth k := hleg k (List.mem_cons_self k ks)
    obtain ⟨r0, hr0, hr0inl⟩ :=
      cellStep_ok expected actual hdims hinv hdm hmax hkleg
    simp only [kLoop]
    rw [hr0]
    simp only [Option.some_bind]
    cases r0 with
    | inr p => exact ⟨Sum.inr p, rfl, fun t' h => nomatch h⟩
    | inl t1 =>
      obtain ⟨hdims1, hunch1, hcell1⟩ := hr0inl t1 rfl
      have hinv1 : invBelow maxd depth t1 := by
        intro i j hi hj hp
        exact cellOk_congr (hunch1 i j (by intro hc; omega))
          (hinv i j hi hj hp)
      have hrow1 : ∀ j : Nat, j ≤ maxd + depth →
          (depth + j) % 2 = maxd % 2 →
          (∀ k' ∈ ks, (j : Int) ≠ (maxd : Int) + k') →
          cellOk maxd t1 depth j := by
        intro j hj hp hnot
        by_cases hjk : (j : Int) = (maxd : Int) + k
        · exact hcell1 j hjk
        · refine cellOk_congr (hunch1 depth j ?_) (hrow j hj hp ?_)
          · intro hc
            exact hjk hc.2
          · intro k' hk'
            rcases List.mem_cons.mp hk' with rfl | hk2
            · exact hjk
            · exact hnot k' hk2
      exact ih t1 hdims1 hinv1
        (fun k' hk' => hleg k' (List.mem_cons_of_mem k hk')) hrow1

/-- The outer depth loop succeeds from any starting depth whose lower rows
satisfy the invariant. -/
theorem depthLoop_some {α : Type} [DecidableEq α] (expected actual : List α)
    {maxd : Nat} (hmax : 1 ≤ maxd) :
    ∀ (len d0 : Nat) (t : Table), d0 + len = maxd → dims maxd t →
      invBelow maxd d0 t →
      ∃ r, depthLoop expected actual maxd t (List.range' d0 len) = some r :=
  by
  intro len
  induction len with
  | zero =>
    intro d0 t hlen hdims hinv
    exact ⟨Sum.inl t, rfl⟩
  | succ len ih =>
    intro d0 t hlen hdims hinv
    have hdm : d0 < maxd := by omega
    have hrow0 : ∀ j : Nat, j ≤ maxd + d0 → (d0 + j) % 2 = maxd % 2 →
        (∀ k ∈ kRange d0, (j : Int) ≠ (maxd : Int) + k) →
        cellOk maxd t d0 j := by
      intro j hj hp hnot
      by_cases hjm : j ≤ maxd
      · exact cellOk_of_le_maxd hjm
      · exfalso
        have hle : kLegal d0 ((j : Int) - (maxd : Int)) :=
          ⟨by omega, by omega, by omega⟩
        exact hnot _ (mem_kRange hle) (by omega)
    obtain ⟨r0, hr0, hr0inl⟩ := kLoop_some expected actual hdm hmax
      (kRange d0) t hdims hinv (kRange_legal d0) hrow0
    rw [List.range'_succ]
    simp only [depthLoop]
    rw [hr0]
    simp only [Option.some_bind]
    cases r0 with
    | inr p => exact ⟨Sum.inr p, rfl⟩
    | inl t1 =>
      obtain ⟨hdims1, hinv1⟩ := hr0inl t1 rfl
      exact ih (d0 + 1) t1 (by omega) hdims1 hinv1

/-- `get_diff` succeeds whenever the combined input length is positive: the
initial seed write, the whole bounded search and any terminal path
reconstruction stay within bounds with succeeding conversions. -/
theorem get_diff_some_of_pos {α : Type} [DecidableEq α]
    (expected actual : List α)
    (hmax : 1 ≤ expected.length + actual.length) :
    get_diff expected actual ≠ none := by
  simp only [get_diff]
  have hdims0 : dims (expected.length + actual.length)
      (List.replicate (expected.length + actual.length)
        (List.replicate (2 * (expected.length + actual.length) + 1) 0)) :=
    by
    constructor
    · simp
    · intro row hmem
      rw [List.eq_of_mem_replicate hmem]
      simp
  obtain ⟨t1, hset, hdims1, hget1, hunch1⟩ :=
    setAt_some_of_dims hdims0 0 (i := 0)
      (j := expected.length + actual.length) (by omega) (by omega)
  rw [hset]
  simp only [Option.some_bind]
  obtain ⟨r, hr⟩ := depthLoop_some expected actual hmax
    (expected.length + actual.length) 0 t1 (by omega) hdims1
    (fun i j hi => absurd hi (Nat.not_lt_zero i))
  rw [List.range_eq_range', hr]
  simp only [Option.some_bind]
  cases r with
  | inl t2 => simp
  | inr p => simp

/-- Claim C10: for every pair of input slices of which at least one is
non-empty, `get_diff` runs to completion without panicking — every trace
table access stays in bounds and every integer conversion succeeds — and
`get_path`, invoked inside it on the terminal state, likewise succeeds (a
panic anywhere is modelled as the result `none`). -/
theorem c10_no_panic {α : Type} [DecidableEq α] (expected actual : List α)
    (h : expected ≠ [] ∨ actual ≠ []) :
    get_diff expected actual ≠ none := by
  apply get_diff_some_of_pos
  cases h with
  | inl h1 =>
    have := List.length_pos.mpr h1
    omega
  | inr h1 =>
    have := List.length_pos.mpr h1
    omega

/-- Witness for C10 at a concrete input. -/
theorem c10_no_panic_witness :
    ((["a"] : List String) ≠ [] ∨ (["b"] : List String) ≠ []) ∧
    get_diff ["a"] ["b"] ≠ none :=
  ⟨Or.inl (by decide), c10_no_panic ["a"] ["b"] (Or.inl (by decide))⟩

/-- The keep-filling loop only appends to its accumulator. -/
theorem fillKeepsGo_append {α : Type} (actual : List α) (x : Int) :
    ∀ (fuel : Nat) (px py : Int) (acc : List (Printer α)),
      fillKeepsGo actual x fuel px py acc =
        (fillKeepsGo actual x fuel px py []).map fun r =>
          (acc ++ r.1, r.2) := by
  intro fuel
  induction fuel with
  | zero => intro px py acc; simp [fillKeepsGo]
  | succ fuel ih =>
    intro px py acc
    by_cases hlt : px < x
    · simp only [fillKeepsGo, if_pos hlt]
      cases intToUsize px with
      | none => rfl
      | some i =>
        simp only [Option.some_bind]
        cases actual[i]? with
        | none => rfl
        | some line =>
          simp only [Option.some_bind]
          rw [ih (px + 1) (py + 1) (acc.concat ⟨Operation.Nothing, line⟩),
            ih (px + 1) (py + 1) (List.concat [] ⟨Operation.Nothing, line⟩)]
          cases fillKeepsGo actual x fuel (px + 1) (py + 1) [] with
          | none => rfl
          | some r => simp [List.concat_eq_append, List.append_assoc]
    · simp [fillKeepsGo, if_neg hlt]

/-- The keep-filling while loop only appends to its accumulator. -/
theorem fillKeeps_append {α : Type} (actual : List α) (x px py : Int)
    (acc : List (Printer α)) :
    fillKeeps actual x px py acc =
      (fillKeeps actual x px py []).map fun r => (acc ++ r.1, r.2) := by
  unfold fillKeeps
  exact fillKeepsGo_append actual x _ px py acc

/-- The per-point adjustment only appends to its accumulator. -/
theorem adjustStep_append {α : Type} (expected actual : List α)
    (x y px py : Int) (acc : List (Printer α)) :
    adjustStep expected actual x y px py acc =
      (adjustStep expected actual x y px py []).map fun r =>
        (acc ++ r.1, r.2) := by
  unfold adjustStep
  by_cases h1 : px - py < x - y
  · simp only [if_pos h1]
    cases intToUsize px with
    | none => rfl
    | some i =>
      simp only [Option.some_bind]
      cases actual[i]? with
      | none => rfl
      | some line => simp [List.concat_eq_append]
  · by_cases h2 : x - y < px - py
    · simp only [if_neg h1, if_pos h2]
      cases intToUsize py with
      | none => rfl
      | some j =>
        simp only [Option.some_bind]
        cases expected[j]? with
        | none => rfl
        | some line => simp [List.concat_eq_append]
    · simp [if_neg h1, if_neg h2]

/-- The renderer loop only appends to its accumulator: rendering with a
seeded operation list prefixes the seed to the rendering with an empty
one. -/
theorem renderLoop_append {α : Type} (expected actual : List α) :
    ∀ (coords : List (Nat × Nat)) (px py : Int) (acc : List (Printer α)),
      renderLoop expected actual coords px py acc =
        (renderLoop expected actual coords px py []).map fun out =>
          acc ++ out := by
  intro coords
  induction coords with
  | nil => intro px py acc; simp [renderLoop]
  | cons c rest ih =>
    intro px py acc
    obtain ⟨xn, yn⟩ := c
    simp only [renderLoop]
    rw [adjustStep_append expected actual (xn : Int) (yn : Int) px py acc]
    cases hadj : adjustStep expected actual (xn : Int) (yn : Int) px py []
      with
    | none => rfl
    | some r1 =>
      simp only [Option.map_some', Option.some_bind]
      rw [fillKeeps_append actual (xn : Int) r1.2.1 r1.2.2 (acc ++ r1.1),
        fillKeeps_append actual (xn : Int) r1.2.1 r1.2.2 r1.1]
      cases hfill : fillKeeps actual (xn : Int) r1.2.1 r1.2.2 [] with
      | none => rfl
      | some r2 =>
        simp only [Option.map_some', Option.some_bind]
        rw [ih r2.2.1 r2.2.2 ((acc ++ r1.1) ++ r2.1),
          ih r2.2.1 r2.2.2 (r1.1 ++ r2.1)]
        cases renderLoop expected actual rest r2.2.1 r2.2.2 [] with
        | none => rfl
        | some out => simp [List.append_assoc]

/-- Claim C9: when the two documents' first definitions have the same
operation type, the post-parse logic of `main` emits the first rendered
expected line as a Keep (Nothing) entry before all diff output, and the
diff itself is computed only over the remaining lines of both documents. -/
theorem c9_skip_first_line (expectedOp actualOp : GraphqlOpType)
    (h : actualOp = expectedOp) (e0 a0 : String)
    (erest arest : List String) :
    mainOutput expectedOp actualOp (e0 :: erest) (a0 :: arest) =
      (get_diff erest arest).bind fun coords =>
        (print_output coords [] erest arest).map fun out =>
          ⟨Operation.Nothing, e0⟩ :: out := by
  unfold mainOutput
  simp only [if_pos h, List.drop_succ_cons, List.drop_zero,
    List.getElem?_cons_zero, Option.some_bind, if_pos rfl]
  cases get_diff erest arest with
  | none => rfl
  | some coords =>
    simp only [Option.some_bind, if_true, List.getElem?_cons_zero,
      Option.some_bind]
    unfold print_output
    rw [renderLoop_append erest arest coords 0 0
      [(⟨Operation.Nothing, e0⟩ : Printer String)]]
    cases renderLoop erest arest coords 0 0 [] with
    | none => rfl
    | some out => simp

/-- Witness for C9 at a concrete input: both documents are queries, the
first lines are kept, and the diff runs over the remaining single lines. -/
theorem c9_skip_first_line_witness :
    GraphqlOpType.Query = GraphqlOpType.Query ∧
    mainOutput GraphqlOpType.Query GraphqlOpType.Query ["q", "x"]
        ["q", "y"] =
      (get_diff ["x"] ["y"]).bind fun coords =>
        (print_output coords [] ["x"] ["y"]).map fun out =>
          ⟨Operation.Nothing, "q"⟩ :: out :=
  ⟨rfl, c9_skip_first_line GraphqlOpType.Query GraphqlOpType.Query rfl
    "q" "q" ["x"] ["y"]⟩

/-- Claim C1, evaluated on the code: on expected = [a, b, c] and
actual = [a, x, c] the composition of get_diff, get_path and print_output
(with no pre-seeded operations) emits Delete(a), Keep(x), Insert(b),
Keep(c) — not the list Keep(a), Delete(x), Insert(b), Keep(c) stated by the
claim. The final push of get_path reads row 0 at the stale column
`padded_k + 1` (column 8 instead of 6), so the diff starts from (0,0)
instead of the snake end (1,1). -/
theorem c1_concrete_scenario :
    diffOutput ["a", "b", "c"] ["a", "x", "c"] =
      some [⟨Operation.Delete, "a"⟩, ⟨Operation.Nothing, "x"⟩,
            ⟨Operation.Insert, "b"⟩, ⟨Operation.Nothing, "c"⟩] ∧
    diffOutput ["a", "b", "c"] ["a", "x", "c"] ≠
      some [⟨Operation.Nothing, "a"⟩, ⟨Operation.Delete, "x"⟩,
            ⟨Operation.Insert, "b"⟩, ⟨Operation.Nothing, "c"⟩] := by
  constructor
  · rfl
  · decide

/-- Claim C2, evaluated on the code: diffing the non-empty sequence [a]
against itself yields no operations at all instead of one Keep per element;
get_diff terminates at depth 0 and the final push of get_path reads the
never-written column 1 of row 0, so the path is [(0,0)] and the renderer
fills nothing. -/
theorem c2_identity_diff :
    diffOutput ["a"] ["a"] = some [] ∧ (["a"] : List String) ≠ [] := by
  constructor
  · rfl
  · decide

/-- Claim C3, evaluated on the code: on expected = [a, b, c] and
actual = [a, x, c] the Keep and Insert lines of the output are [x, b, c],
which do not reproduce the expected sequence [a, b, c] (and the claimed
reconstruction property fails). -/
theorem c3_reconstruction :
    (diffOutput ["a", "b", "c"] ["a", "x", "c"]).map keepInsertLines =
      some ["x", "b", "c"] ∧
    (["x", "b", "c"] : List String) ≠ ["a", "b", "c"] := by
  constructor
  · rfl
  · decide

/-- Claim C4, evaluated on the code: on expected = actual = [a] the output
contains 0 Keep operations although the longest common subsequence of the
two inputs has length 1. -/
theorem c4_keep_count_vs_lcs :
    (diffOutput ["a"] ["a"]).map keepCount = some 0 ∧
    lcsLen ["a"] ["a"] = 1 := by
  constructor
  · rfl
  · simp [lcsLen]

/-- Claim C5, evaluated on the code: on two empty sequences `max_diff` is
0, the trace table has zero rows, and the write `path[0][max_diff] = 0` is
an out-of-bounds panic; get_diff does not return an empty operation
list. -/
theorem c5_empty_empty_panics :
    get_diff ([] : List String) [] = none := rfl

/-- Claim C6, evaluated on the code: diffing [] against [a, b] (and
symmetrically [a, b] against []) produces no operations at all, because the
edit distance 2 equals `max_diff` and the depth loop `0..max_diff` stops at
depth 1, so get_diff falls through to the empty vector and the renderer
emits nothing. -/
theorem c6_empty_vs_two :
    diffOutput ([] : List String) ["a", "b"] = some [] ∧
    diffOutput ["a", "b"] ([] : List String) = some [] := by
  constructor
  · rfl
  · rfl

/-- Claim C7, evaluated on the code: for expected = [x], actual = [y] (two
disjoint one-line inputs, A + E = 2 > 0) the terminal corner needs depth
A + E = 2, which the exclusive loop `0..max_diff` never reaches, so
get_diff returns normally with an empty path — the failure mode the claim
calls unreachable. -/
theorem c7_terminal_not_reached :
    get_diff ["x"] ["y"] = some [] ∧
    (["x"] : List String).length + (["y"] : List String).length > 0 := by
  constructor
  · rfl
  · decide

/-- Claim C8, evaluated on the code: on expected = actual = [a] the search
finds the terminal state at depth 0, yet the path returned by get_path is
[(0, 0)], whose last coordinate differs from (A, E) = (1, 1). -/
theorem c8_last_coordinate :
    get_diff ["a"] ["a"] = some [(0, 0)] ∧
    [((0 : Nat), (0 : Nat))].getLast? ≠
      some ((["a"] : List String).length, (["a"] : List String).length) := by
  constructor
  · rfl
  · decide

end GraphqlQueryDiff
